import Mathlib

/-!
# operator-helper : bootstrap configuration resolver

A shallow embedding of `config/config.go`, `k8s/annotation/annotation.go` and
`k8s/pvc/pvc.go`, together with the properties of the resolver that the
specification states.

Modelling conventions.

* A Go `string` is a Lean `String`, i.e. a sequence of Unicode code points; the
  environment is assumed to hold valid UTF-8.  `len(s)` is the UTF-8 byte length.
* The process environment, the temporary directory and the filesystem are the
  fields of a `World` record that every reader of them takes as an argument.
* `log.Fatalf` ends the process: a function that may call it returns
  `Outcome _`.
* A Go `map[string]V` is an association list read through `GoMap.get?`; the nil
  map is `none` of `Option (GoMap V)`.
-/

set_option maxRecDepth 8000

namespace OperatorHelper

/-! ## The Go standard library, as far as the resolver calls it -/

/-- Go `unicode.IsSpace`: the Latin-1 switch, then the `White_Space` range table. -/
def isSpace (r : Char) : Bool :=
  let c := r.toNat
  if c ≤ 0xFF then
    c == 0x09 || c == 0x0A || c == 0x0B || c == 0x0C || c == 0x0D || c == 0x20 ||
      c == 0x85 || c == 0xA0
  else
    c == 0x1680 || (0x2000 ≤ c && c ≤ 0x200A) || c == 0x2028 || c == 0x2029 ||
      c == 0x202F || c == 0x205F || c == 0x3000

/-- Go `strings.TrimLeftFunc(s, unicode.IsSpace)` on the code points of `s`. -/
def trimLeftSpace (s : List Char) : List Char :=
  s.dropWhile isSpace

/-- Go `strings.TrimRightFunc(s, unicode.IsSpace)` on the code points of `s`. -/
def trimRightSpace (s : List Char) : List Char :=
  (s.reverse.dropWhile isSpace).reverse

/-- Go `strings.TrimSpace`: leading, then trailing, white space is cut off. -/
def TrimSpace (s : String) : String :=
  ⟨trimRightSpace (trimLeftSpace s.data)⟩

/-- The loop of Go `strings.Split(s, sep)` for a one-byte separator: `cur` holds, reversed,
the piece being read; every occurrence of `sep` closes a piece. -/
def splitLoop (sep : Char) : List Char → List Char → List (List Char)
  | [], cur => [cur.reverse]
  | c :: cs, cur =>
    if c = sep then cur.reverse :: splitLoop sep cs [] else splitLoop sep cs (c :: cur)

/-- Go `strings.Split(s, sep)` for a one-byte separator `sep`. -/
def Split (s : String) (sep : Char) : List String :=
  (splitLoop sep s.data []).map String.mk

/-- Go `strings.Count(s, sep)` for a one-byte separator `sep`. -/
def Count (s : String) (sep : Char) : Nat :=
  s.data.count sep

/-- The relation between a string and what trimming leaves of it: white space was cut off on
both sides, and none is left at either end. -/
def IsTrimOf (p t : String) : Prop :=
  ∃ l r, p.data = l ++ t.data ++ r ∧
    (∀ c ∈ l, isSpace c = true) ∧ (∀ c ∈ r, isSpace c = true) ∧
    (∀ c, t.data.head? = some c → isSpace c = false) ∧
    (∀ c, t.data.getLast? = some c → isSpace c = false)

/-! ## The world the resolver reads -/

/-- What the resolver reads from outside the program. -/
structure World where
  /-- The process environment, Go `os.LookupEnv`: `none` is an unset variable. -/
  env : String → Option String
  /-- Go `os.TempDir()`. -/
  TempDir : String
  /-- Go `filepath.Join`. -/
  Join : List String → String
  /-- Whether `os.Stat(path)` fails with an error for which `os.IsNotExist` holds. -/
  statIsNotExist : String → Bool

/-- Go `os.Getenv`: the value of the variable, empty when it is unset. -/
def Getenv (w : World) (key : String) : String :=
  (w.env key).getD ""

def envOperatorHost : String := "K8S-OPERATOR_HOST"
def envEnableWebHooks : String := "ENABLE_WEBHOOKS"
def envHealthProbeAddress : String := "K8S-HEALTH_PROBE_ADDRESS"
def envWebHookCertificateDir : String := "WEBHOOK_CERTIFICATES_DIR"
def envNamespacesToWatch : String := "NAMESPACES_TO_WATCH"
def envEnableLeaderElection : String := "ENABLE_LEADER_ELECTION"
def envLeaderElectionNamespace : String := "LEADER_ELECTION_NAMESPACE"
def envMetricsServerPort : String := "METRICS_SERVER_PORT"

/-! ## `config.NamespacesToWatch` -/

/-- The `for i, n := range namespaces { namespaces[i] = strings.TrimSpace(n) }` loop:
the indices are visited in order and the slice is written in place. -/
def cleanup (namespaces : List String) : List String :=
  (List.range namespaces.length).foldl
    (fun ns i => ns.set i (TrimSpace (ns.getD i ""))) namespaces

/-- Go `NamespacesToWatch`: the array of namespaces to watch. -/
def NamespacesToWatch (w : World) : List String :=
  let val := Getenv w envNamespacesToWatch
  if val = "" then []
  else cleanup (Split val ',')

/-! ## `strconv` and `fmt` -/

/-- The two errors of Go `strconv`: `ErrSyntax` and `ErrRange`. -/
inductive NumError where
  | ErrSyntax
  | ErrRange
  deriving DecidableEq, Repr

/-- Go `strconv.IntSize` on a 64-bit platform. -/
def intSize : Nat := 64

/-- The value of a Go `int` after an arithmetic operation: two's complement on `intSize` bits. -/
def wrapInt (x : Int) : Int :=
  (x + 2 ^ (intSize - 1)) % 2 ^ intSize - 2 ^ (intSize - 1)

/-- Whether the code point is one of the bytes `'0'` .. `'9'`. -/
def isDigit (c : Char) : Bool :=
  48 ≤ c.toNat && c.toNat ≤ 57

/-- The digit loop of the fast path of Go `strconv.Atoi`:
`ch -= '0'; if ch > 9 { return 0, syntaxError }; n = n*10 + int(ch)`.
A code point outside ASCII is made of bytes from `0x80` on, none of them a digit. -/
def atoiLoop : List Char → Int → Int × Option NumError
  | [], n => (n, none)
  | ch :: rest, n =>
    if isDigit ch then atoiLoop rest (wrapInt (n * 10 + ((ch.toNat - 48 : Nat) : Int)))
    else (0, some .ErrSyntax)

/-- The digit loop of Go `strconv.ParseUint(s, 10, 0)` on `uint64`: with base 10 a letter is a
digit not below the base and every other byte takes the default case, a syntax error both;
`cutoff = maxUint64/10 + 1` and `maxVal = 1<<64 - 1`. -/
def parseUintLoop : List Char → Nat → Nat × Option NumError
  | [], n => (n, none)
  | c :: rest, n =>
    if isDigit c then
      let d := c.toNat - 48
      if n ≥ (2 ^ 64 - 1) / 10 + 1 then (2 ^ 64 - 1, some .ErrRange)
      else
        let n10 := n * 10
        let n1 := (n10 + d) % 2 ^ 64
        if n1 < n10 ∨ n1 > 2 ^ 64 - 1 then (2 ^ 64 - 1, some .ErrRange)
        else parseUintLoop rest n1
    else (0, some .ErrSyntax)

/-- Go `strconv.ParseUint(s, 10, 0)`. -/
def ParseUint (s : List Char) : Nat × Option NumError :=
  if s = [] then (0, some .ErrSyntax) else parseUintLoop s 0

/-- Go `strconv.ParseInt(s, 10, 0)`: an optional sign, then `ParseUint`, then the range of
`int`, whose `cutoff` is `1 << (intSize-1)`. -/
def ParseInt (s : List Char) : Int × Option NumError :=
  match s with
  | [] => (0, some .ErrSyntax)
  | c :: rest =>
    let neg := c = '-'
    let s1 := if c = '+' ∨ c = '-' then rest else s
    let (un, err) := ParseUint s1
    if err = some .ErrSyntax then (0, err)
    else
      let cutoff : Nat := 2 ^ (intSize - 1)
      if ¬ neg ∧ un ≥ cutoff then ((cutoff : Int) - 1, some .ErrRange)
      else if neg ∧ un > cutoff then (-(cutoff : Int), some .ErrRange)
      else (if neg then -(un : Int) else (un : Int), none)

/-- Go `strconv.Atoi`: the fast path for fewer than 19 bytes, otherwise `ParseInt(s, 10, 0)`. -/
def Atoi (s : String) : Int × Option NumError :=
  let sLen := s.utf8ByteSize
  if 0 < sLen ∧ sLen < 19 then
    match s.data with
    | [] => (0, some .ErrSyntax)
    | c :: rest =>
      if c = '-' ∨ c = '+' then
        if rest.length < 1 then (0, some .ErrSyntax)
        else
          match atoiLoop rest 0 with
          | (n, none) => (if c = '-' then wrapInt (-n) else n, none)
          | (_, some e) => (0, some e)
      else
        match atoiLoop (c :: rest) 0 with
        | (n, none) => (n, none)
        | (_, some e) => (0, some e)
  else ParseInt s.data

/-- The number that the decimal digits `ds` write after the digits of `n`. -/
def decimalFold (n : Nat) (ds : List Char) : Nat :=
  ds.foldl (fun n c => n * 10 + (c.toNat - 48)) n

/-- The string `s` is an optional sign and at least one decimal digit, it writes the integer
`n`, and `n` is in the range of a 64-bit `int`. -/
def IsDecimalInt (s : List Char) (n : Int) : Prop :=
  ∃ digits : List Char, digits ≠ [] ∧ (∀ c ∈ digits, isDigit c = true) ∧
    ((s = digits ∧ n = (decimalFold 0 digits : Nat)) ∨
      (s = '+' :: digits ∧ n = (decimalFold 0 digits : Nat)) ∨
      (s = '-' :: digits ∧ n = -((decimalFold 0 digits : Nat) : Int))) ∧
    -(2 : Int) ^ 63 ≤ n ∧ n < (2 : Int) ^ 63

/-- Go `strconv.FormatInt(i, 10)`, which is also the verb `%d` of `fmt`. -/
def FormatInt (i : Int) : String :=
  if i < 0 then "-" ++ Nat.repr i.natAbs else Nat.repr i.natAbs

/-- Go `strconv.FormatBool`. -/
def FormatBool (b : Bool) : String :=
  if b then "true" else "false"

/-! ## The flags, the metrics address and the certificate directory -/

/-- Go `LeaderElectionEnabled`: checks if leader election is enabled. -/
def LeaderElectionEnabled (w : World) : Bool :=
  TrimSpace (Getenv w envEnableLeaderElection) != "false"

/-- How a call that may end the process comes out: it returns `v`, or the process is ended
(`log.Fatalf`, `os.Exit`) after the line `msg` was logged. -/
inductive Outcome (α : Type) where
  | ok (v : α)
  | fatal (msg : String)
  deriving DecidableEq, Repr

/-- Go `metricServerAddress`. -/
def metricServerAddress (w : World) : Outcome String :=
  let portStr := TrimSpace (Getenv w envMetricsServerPort)
  if portStr = "" then .ok ""
  else
    let (port, err) := Atoi portStr
    if err ≠ none then .fatal ("Invalid " ++ envMetricsServerPort ++ "=" ++ portStr)
    else .ok (":" ++ FormatInt port)

/-- Modelled from the spec: `oputil.ValueOr`, whose package is not part of the sources read
here.  It reads the named setting and returns the default when the setting is absent or
blank after trimming white space. -/
def ValueOr (w : World) (key def_ : String) : String :=
  let v := Getenv w key
  if TrimSpace v = "" then def_ else v

/-- Go `GetWebHookCertDir`: the directory of the webhook certificates. -/
def GetWebHookCertDir (w : World) : String :=
  let def_ := w.Join [w.TempDir, "k8s-webhook-server", "serving-certs"]
  ValueOr w envWebHookCertificateDir def_

/-- Go `WebHooksEnabled`: the returned flag and the lines written by `log.Printf`. -/
def WebHooksEnabled (w : World) : Bool × List String :=
  if TrimSpace (Getenv w envEnableWebHooks) != "false" then
    if !(w.statIsNotExist (GetWebHookCertDir w)) then (true, [])
    else
      (TrimSpace (Getenv w envEnableWebHooks) != "false",
        ["The webhook cert directory does not exists: " ++ GetWebHookCertDir w])
  else (TrimSpace (Getenv w envEnableWebHooks) != "false", [])

/-- Go `LeaderElectionNamespace`: the leader election namespace. -/
def LeaderElectionNamespace (w : World) (operatorName : String) : String :=
  let ns := TrimSpace (Getenv w envLeaderElectionNamespace)
  if ns ≠ "" then ns else operatorName

/-! ## Go maps -/

/-- A Go `map[string]V`: the entries in some order; a key is read at its first entry. -/
structure GoMap (V : Type) where
  entries : List (String × V)
  deriving DecidableEq, Repr

namespace GoMap

/-- Go `make(map[string]V)`, also `map[string]V{}`. -/
def empty {V : Type} : GoMap V :=
  ⟨[]⟩

/-- Go `v, ok := m[k]`. -/
def get? {V : Type} (m : GoMap V) (k : String) : Option V :=
  m.entries.lookup k

/-- The entries after `m[k] = v`: the entry of `k` is overwritten, or a new one is added. -/
def setEntries {V : Type} (k : String) (v : V) : List (String × V) → List (String × V)
  | [] => [(k, v)]
  | (k1, v1) :: rest => if k = k1 then (k, v) :: rest else (k1, v1) :: setEntries k v rest

/-- Go `m[k] = v`. -/
def set {V : Type} (m : GoMap V) (k : String) (v : V) : GoMap V :=
  ⟨setEntries k v m.entries⟩

/-- The keys of the map, one for each entry. -/
def keys {V : Type} (m : GoMap V) : List String :=
  m.entries.map Prod.fst

end GoMap

/-! ## `config.GetManagerParams` -/

/-- The fields of `webhook.Options` that `GetManagerParams` sets. -/
structure WebhookOptions where
  Host : String
  Port : Int
  CertDir : String
  deriving DecidableEq, Repr

/-- Per-namespace cache configuration, `cache.Config` of controller-runtime; `none` is the zero
value of a field. -/
structure CacheConfig where
  LabelSelector : Option String := none
  FieldSelector : Option String := none
  Transform : Option String := none
  UnsafeDisableDeepCopy : Option Bool := none
  deriving DecidableEq, Repr

/-- The field of `cache.Options` that `GetManagerParams` sets; `none` is the nil map. -/
structure CacheOptions where
  DefaultNamespaces : Option (GoMap CacheConfig) := none
  deriving DecidableEq, Repr

/-- The field of `metricsserver.Options` that `GetManagerParams` sets. -/
structure MetricsOptions where
  BindAddress : String
  deriving DecidableEq, Repr

/-- The fields of `ctrl.Options` that `GetManagerParams` sets, the logger apart. -/
structure Options (Scheme : Type) where
  Scheme : Scheme
  HealthProbeBindAddress : String
  WebhookServer : WebhookOptions
  Cache : CacheOptions
  Metrics : MetricsOptions
  LeaderElection : Bool
  LeaderElectionNamespace : String
  LeaderElectionID : String
  deriving DecidableEq, Repr

/-- Go `env.GetString` of `k8s.io/utils/env`: the value of a set variable, else the default. -/
def GetString (w : World) (key defaultValue : String) : String :=
  match w.env key with
  | some v => v
  | none => defaultValue

/-- The `for _, namespace := range namespaces { defaultNamespaces[namespace] = cache.Config{} }`
loop, started on `make(map[string]cache.Config)`. -/
def defaultNamespacesOf (namespaces : List String) : GoMap CacheConfig :=
  namespaces.foldl (fun m namespace_ => m.set namespace_ {}) GoMap.empty

/-- Go `GetManagerParams`: the manager options to use.  `restConfig` is what
`config.GetConfigOrDie()` finds, `none` when it ends the process. -/
def GetManagerParams {Scheme RestConfig : Type} (w : World) (restConfig : Option RestConfig)
    (scheme : Scheme) (operatorName domainName : String) :
    Outcome (RestConfig × Options Scheme) :=
  match metricServerAddress w with
  | .fatal msg => .fatal msg
  | .ok bindAddress =>
    let options : Options Scheme :=
      { Scheme := scheme
        HealthProbeBindAddress := GetString w envHealthProbeAddress ":8081"
        WebhookServer :=
          { Host := GetString w envOperatorHost ""
            Port := 9443
            CertDir := GetWebHookCertDir w }
        Cache := {}
        Metrics := { BindAddress := bindAddress }
        LeaderElection := LeaderElectionEnabled w
        LeaderElectionNamespace := LeaderElectionNamespace w operatorName
        LeaderElectionID := "leader-lock-65403bab." ++ operatorName ++ "." ++ domainName }
    let namespaces := NamespacesToWatch w
    let options :=
      if namespaces.length > 0 then
        { options with Cache := { DefaultNamespaces := some (defaultNamespacesOf namespaces) } }
      else options
    match restConfig with
    | none => .fatal "unable to get kubeconfig"
    | some cfg => .ok (cfg, options)

/-! ## `annotation.DecorateForPrometheus` -/

def annPrometheusScrape : String := "prometheus.io/scrape"
def annPrometheusPort : String := "prometheus.io/port"

/-- Go `DecorateForPrometheus`: adds prometheus scraping annotations; `none` is the nil map. -/
def DecorateForPrometheus (ann : Option (GoMap String)) (scrap : Bool) (port : Int) :
    GoMap String :=
  let ann := match ann with
    | none => GoMap.empty
    | some m => m
  let ann := ann.set annPrometheusScrape (FormatBool scrap)
  if scrap then ann.set annPrometheusPort (FormatInt port) else ann

/-! ## `pvc.New` -/

/-- Go `metav1.TypeMeta`. -/
structure TypeMeta where
  Kind : String
  APIVersion : String
  deriving DecidableEq, Repr

/-- The fields of `metav1.ObjectMeta` that `pvc.New` sets. -/
structure ObjectMeta where
  Namespace : String
  Name : String
  Labels : Option (GoMap String)
  deriving DecidableEq, Repr

/-- Go `v1.PersistentVolumeClaimStatus`, by its phase, access modes and capacity. -/
structure PersistentVolumeClaimStatus where
  Phase : String := ""
  AccessModes : List String := []
  Capacity : Option (GoMap String) := none
  deriving DecidableEq, Repr

/-- Go `v1.PersistentVolumeClaim` over a claim spec of type `Spec`. -/
structure PersistentVolumeClaim (Spec : Type) where
  TypeMeta : TypeMeta
  ObjectMeta : ObjectMeta
  Spec : Spec
  Status : PersistentVolumeClaimStatus
  deriving DecidableEq, Repr

/-- A claim spec, `v1.PersistentVolumeClaimSpec`, by the fields an operator usually fills. -/
structure PersistentVolumeClaimSpec where
  AccessModes : List String := []
  StorageClassName : Option String := none
  VolumeName : String := ""
  StorageRequest : Option String := none
  deriving DecidableEq, Repr

/-- Go `pvc.New`: creates a new pvc. -/
def New {Spec : Type} (namespace_ name : String) (labels : Option (GoMap String)) (spec : Spec) :
    PersistentVolumeClaim Spec :=
  { TypeMeta := { Kind := "StatefulSet", APIVersion := "apps/v1" }
    ObjectMeta := { Namespace := namespace_, Name := name, Labels := labels }
    Spec := spec
    Status := {} }

/-! ## Sample inputs -/

/-- A world in which exactly the listed variables are set; an empty filesystem. -/
def worldOf (vars : List (String × String)) : World where
  env := fun k => vars.lookup k
  TempDir := "/tmp"
  Join := fun elems => "/".intercalate elems
  statIsNotExist := fun _ => true

/-! ## Lemmas on the library model -/

/-- Writing `f` of the element at each index in turn is `List.map f`. -/
theorem foldl_set_range {α : Type} (f : α → α) (d : α) (l : List α) :
    ∀ k, k ≤ l.length →
      (List.range k).foldl (fun ns i => ns.set i (f (ns.getD i d))) l =
        (l.take k).map f ++ l.drop k
  | 0, _ => by simp
  | k + 1, hk => by
    have hk1 : k < l.length := hk
    have hlen : ((l.take k).map f).length = k := by simp [le_of_lt hk1]
    have key : ∀ (a : List α) (x : α) (b : List α), a.length = k →
        (a ++ x :: b).set k (f ((a ++ x :: b).getD k d)) = a ++ f x :: b := by
      intro a x b h
      subst h
      have hx : (a ++ x :: b).getD a.length d = x := by
        rw [List.getD_eq_getElem?_getD, List.getElem?_append_right (le_refl _)]
        simp
      rw [hx]
      simp
    rw [List.range_succ, List.foldl_append, foldl_set_range f d l k (le_of_lt hk1)]
    simp only [List.foldl_cons, List.foldl_nil]
    rw [List.drop_eq_getElem_cons hk1, key _ _ _ hlen, List.take_succ,
      List.getElem?_eq_getElem hk1]
    simp only [List.map_append, Option.toList, List.map_cons, List.map_nil, List.append_assoc,
      List.singleton_append]

theorem cleanup_eq_map (l : List String) : cleanup l = l.map TrimSpace := by
  unfold cleanup
  rw [foldl_set_range TrimSpace "" l l.length (le_refl _)]
  simp

theorem splitLoop_ne_nil (sep : Char) (s cur : List Char) : splitLoop sep s cur ≠ [] := by
  induction s generalizing cur with
  | nil => simp [splitLoop]
  | cons c cs ih =>
    simp only [splitLoop]
    split
    · simp
    · exact ih _

theorem splitLoop_length (sep : Char) (s cur : List Char) :
    (splitLoop sep s cur).length = s.count sep + 1 := by
  induction s generalizing cur with
  | nil => simp [splitLoop]
  | cons c cs ih =>
    simp only [splitLoop]
    by_cases h : c = sep
    · subst h
      simp [ih]
    · have h1 : ¬ (c == sep) = true := by simpa using h
      simp [h, h1, ih, List.count_cons]

theorem splitLoop_intercalate (sep : Char) (s cur : List Char) :
    List.intercalate [sep] (splitLoop sep s cur) = cur.reverse ++ s := by
  induction s generalizing cur with
  | nil => simp [splitLoop, List.intercalate]
  | cons c cs ih =>
    simp only [splitLoop]
    by_cases h : c = sep
    · subst h
      have ih0 := ih []
      rcases hsp : splitLoop c cs [] with _ | ⟨y, ys⟩
      · exact absurd hsp (splitLoop_ne_nil _ _ _)
      · rw [hsp] at ih0
        simp only [if_true]
        simp only [List.intercalate, List.intersperse_cons₂, List.flatten_cons] at ih0 ⊢
        rw [ih0]
        simp
    · simp only [h, if_false]
      rw [ih]
      simp

theorem splitLoop_no_sep (sep : Char) (s cur : List Char) (hcur : sep ∉ cur) :
    ∀ p ∈ splitLoop sep s cur, sep ∉ p := by
  induction s generalizing cur with
  | nil =>
    intro p hp
    simp only [splitLoop, List.mem_singleton] at hp
    subst hp
    simpa using hcur
  | cons c cs ih =>
    intro p hp
    simp only [splitLoop] at hp
    by_cases h : c = sep
    · simp only [h, if_true, List.mem_cons] at hp
      rcases hp with hp | hp
      · subst hp
        simpa using hcur
      · exact ih [] (by simp) p hp
    · simp only [h, if_false] at hp
      refine ih (c :: cur) ?_ p hp
      simp only [List.mem_cons, not_or]
      exact ⟨fun e => h e.symm, hcur⟩

theorem trimRightSpace_eq_rdropWhile (s : List Char) :
    trimRightSpace s = s.rdropWhile isSpace :=
  rfl

theorem rdropWhile_append_rtakeWhile_self (p : Char → Bool) (s : List Char) :
    s.rdropWhile p ++ s.rtakeWhile p = s := by
  unfold List.rdropWhile List.rtakeWhile
  rw [← List.reverse_append, List.takeWhile_append_dropWhile, List.reverse_reverse]

/-- What is cut off by trimming is white space, on both sides. -/
theorem trim_decomp (s : List Char) :
    ∃ l r, s = l ++ trimRightSpace (trimLeftSpace s) ++ r ∧
      (∀ c ∈ l, isSpace c = true) ∧ (∀ c ∈ r, isSpace c = true) := by
  refine ⟨s.takeWhile isSpace, (s.dropWhile isSpace).rtakeWhile isSpace, ?_, ?_, ?_⟩
  · rw [trimRightSpace_eq_rdropWhile, trimLeftSpace, List.append_assoc,
      rdropWhile_append_rtakeWhile_self, List.takeWhile_append_dropWhile]
  · intro c hc
    exact List.mem_takeWhile_imp hc
  · intro c hc
    exact List.mem_rtakeWhile_imp hc

/-- The trimmed string does not end in white space. -/
theorem trim_getLast (s : List Char) (c : Char)
    (h : (trimRightSpace (trimLeftSpace s)).getLast? = some c) : isSpace c = false := by
  rw [trimRightSpace_eq_rdropWhile] at h
  have hne : (trimLeftSpace s).rdropWhile isSpace ≠ [] := by
    intro e
    rw [e] at h
    simp at h
  have hnot := List.rdropWhile_last_not isSpace (trimLeftSpace s) hne
  rw [List.getLast?_eq_getLast _ hne] at h
  simp only [Option.some.injEq] at h
  rw [h] at hnot
  simpa using hnot

/-- The trimmed string does not start with white space. -/
theorem trim_head (s : List Char) (c : Char)
    (h : (trimRightSpace (trimLeftSpace s)).head? = some c) : isSpace c = false := by
  have hpre : trimRightSpace (trimLeftSpace s) <+: trimLeftSpace s := by
    rw [trimRightSpace_eq_rdropWhile]
    exact List.rdropWhile_prefix isSpace _
  obtain ⟨r, hr⟩ := hpre
  have hd := List.head?_dropWhile_not isSpace s
  have hh : (trimLeftSpace s).head? = some c := by
    rw [← hr]
    cases hm : trimRightSpace (trimLeftSpace s) with
    | nil => rw [hm] at h; simp at h
    | cons a m => rw [hm] at h; simpa using h
  unfold trimLeftSpace at hh
  rw [hh] at hd
  simpa using hd

theorem rdropWhile_append_of_all (p : Char → Bool) (t r : List Char)
    (hr : ∀ c ∈ r, p c = true) : (t ++ r).rdropWhile p = t.rdropWhile p := by
  unfold List.rdropWhile
  rw [List.reverse_append, List.dropWhile_append_of_pos]
  intro a ha
  exact hr a (by simpa using ha)

/-- A string that neither starts nor ends with white space is what trimming leaves of it
after white space was put around it. -/
theorem trim_unique (l t r : List Char)
    (hl : ∀ c ∈ l, isSpace c = true) (hr : ∀ c ∈ r, isSpace c = true)
    (hhead : ∀ c, t.head? = some c → isSpace c = false)
    (hlast : ∀ c, t.getLast? = some c → isSpace c = false) :
    trimRightSpace (trimLeftSpace (l ++ t ++ r)) = t := by
  cases t with
  | nil =>
    have hall : trimLeftSpace (l ++ [] ++ r) = [] := by
      unfold trimLeftSpace
      rw [List.dropWhile_eq_nil_iff]
      intro c hc
      simp only [List.append_nil, List.mem_append] at hc
      exact hc.elim (hl c) (hr c)
    rw [hall]
    rfl
  | cons a t1 =>
    have ha : isSpace a = false := hhead a (by simp)
    have hleft : trimLeftSpace (l ++ a :: t1 ++ r) = a :: t1 ++ r := by
      unfold trimLeftSpace
      rw [List.append_assoc, List.dropWhile_append_of_pos hl]
      simp [List.dropWhile_cons, ha]
    rw [hleft, trimRightSpace_eq_rdropWhile, rdropWhile_append_of_all isSpace _ r hr]
    rw [List.rdropWhile_eq_self_iff]
    intro hne
    have := hlast ((a :: t1).getLast hne) (List.getLast?_eq_getLast _ hne)
    simp [this]

theorem Split_data (v : String) (sep : Char) :
    (Split v sep).map String.data = splitLoop sep v.data [] := by
  unfold Split
  rw [List.map_map]
  have : (String.data ∘ String.mk) = id := by
    funext x
    rfl
  rw [this, List.map_id]

theorem TrimSpace_isTrimOf (p : String) : IsTrimOf p (TrimSpace p) := by
  obtain ⟨l, r, h, hl, hr⟩ := trim_decomp p.data
  exact ⟨l, r, h, hl, hr, trim_head p.data, trim_getLast p.data⟩

theorem isTrimOf_iff (p t : String) : IsTrimOf p t ↔ TrimSpace p = t := by
  constructor
  · rintro ⟨l, r, h, hl, hr, hh, hlast⟩
    apply String.ext
    show trimRightSpace (trimLeftSpace p.data) = t.data
    rw [h]
    exact trim_unique l t.data r hl hr hh hlast
  · intro h
    rw [← h]
    exact TrimSpace_isTrimOf p

/-! ### `strconv.Atoi` -/

theorem isDigit_val (c : Char) (h : isDigit c = true) : c.toNat - 48 ≤ 9 := by
  simp only [isDigit, Bool.and_eq_true, decide_eq_true_eq] at h
  omega

theorem decimalFold_ge (ds : List Char) : ∀ n, n ≤ decimalFold n ds := by
  induction ds with
  | nil => intro n; exact le_refl _
  | cons c ds ih =>
    intro n
    have := ih (n * 10 + (c.toNat - 48))
    show n ≤ decimalFold (n * 10 + (c.toNat - 48)) ds
    omega

theorem decimalFold_lt (ds : List Char) (hd : ∀ c ∈ ds, isDigit c = true) :
    ∀ n, decimalFold n ds < (n + 1) * 10 ^ ds.length := by
  induction ds with
  | nil => intro n; simp [decimalFold]
  | cons c ds ih =>
    intro n
    have hc := isDigit_val c (hd c (by simp))
    have := ih (fun x hx => hd x (List.mem_cons_of_mem _ hx)) (n * 10 + (c.toNat - 48))
    show decimalFold (n * 10 + (c.toNat - 48)) ds < _
    have h2 : (n * 10 + (c.toNat - 48) + 1) * 10 ^ ds.length ≤ (n + 1) * 10 ^ (ds.length + 1) := by
      rw [pow_succ]
      have : n * 10 + (c.toNat - 48) + 1 ≤ (n + 1) * 10 := by omega
      calc (n * 10 + (c.toNat - 48) + 1) * 10 ^ ds.length
          ≤ ((n + 1) * 10) * 10 ^ ds.length := Nat.mul_le_mul_right _ this
        _ = (n + 1) * (10 ^ ds.length * 10) := by ring
    simp only [List.length_cons]
    omega

theorem wrapInt_of_range (x : Int) (h1 : -(2 : Int) ^ 63 ≤ x) (h2 : x < (2 : Int) ^ 63) :
    wrapInt x = x := by
  unfold wrapInt intSize
  norm_num at h1 h2 ⊢
  rw [Int.emod_eq_of_lt (by omega) (by omega)]
  omega

theorem atoiLoop_digits (ds : List Char) (hd : ∀ c ∈ ds, isDigit c = true) :
    ∀ n : Nat, decimalFold n ds < 2 ^ 63 →
      atoiLoop ds (n : Int) = (((decimalFold n ds : Nat) : Int), none) := by
  induction ds with
  | nil => intro n _; rfl
  | cons c ds ih =>
    intro n hlt
    have hc : isDigit c = true := hd c (by simp)
    have hlt1 : decimalFold (n * 10 + (c.toNat - 48)) ds < 2 ^ 63 := hlt
    have hge := decimalFold_ge ds (n * 10 + (c.toNat - 48))
    have hw : wrapInt ((n : Int) * 10 + ((c.toNat - 48 : Nat) : Int)) =
        ((n * 10 + (c.toNat - 48) : Nat) : Int) := by
      rw [wrapInt_of_range]
      · push_cast; rfl
      · have : (0 : Int) ≤ (n : Int) * 10 + ((c.toNat - 48 : Nat) : Int) := by positivity
        norm_num
        omega
      · norm_num at hlt1 ⊢
        omega
    simp only [atoiLoop, hc, if_true, hw]
    exact ih (fun x hx => hd x (List.mem_cons_of_mem _ hx)) _ hlt1

theorem atoiLoop_ok_digits (ds : List Char) :
    ∀ (n r : Int), atoiLoop ds n = (r, none) → ∀ c ∈ ds, isDigit c = true := by
  induction ds with
  | nil => intro n r _ c hc; simp at hc
  | cons a ds ih =>
    intro n r h c hc
    by_cases ha : isDigit a = true
    · simp only [atoiLoop, ha, if_true] at h
      rcases List.mem_cons.mp hc with e | e
      · rw [e]; exact ha
      · exact ih _ r h c e
    · simp [atoiLoop, ha] at h

theorem parseUintLoop_digits (ds : List Char) (hd : ∀ c ∈ ds, isDigit c = true) :
    ∀ n : Nat, decimalFold n ds < 2 ^ 64 →
      parseUintLoop ds n = (decimalFold n ds, none) := by
  induction ds with
  | nil => intro n _; rfl
  | cons c ds ih =>
    intro n hlt
    have hc : isDigit c = true := hd c (by simp)
    have hv := isDigit_val c hc
    have hlt1 : decimalFold (n * 10 + (c.toNat - 48)) ds < 2 ^ 64 := hlt
    have hge := decimalFold_ge ds (n * 10 + (c.toNat - 48))
    have h1 : ¬ n ≥ (2 ^ 64 - 1) / 10 + 1 := by
      norm_num at hlt1 ⊢
      omega
    have h2 : (n * 10 + (c.toNat - 48)) % 2 ^ 64 = n * 10 + (c.toNat - 48) :=
      Nat.mod_eq_of_lt (lt_of_le_of_lt hge hlt1)
    have h3 : ¬ (n * 10 + (c.toNat - 48) < n * 10 ∨ n * 10 + (c.toNat - 48) > 2 ^ 64 - 1) := by
      norm_num at hlt1 ⊢
      omega
    simp only [parseUintLoop, hc, if_true, h1, if_false, h2, h3]
    exact ih (fun x hx => hd x (List.mem_cons_of_mem _ hx)) _ hlt1

theorem parseUintLoop_ok (ds : List Char) :
    ∀ n u : Nat, parseUintLoop ds n = (u, none) →
      (∀ c ∈ ds, isDigit c = true) ∧ u = decimalFold n ds := by
  induction ds with
  | nil =>
    intro n u h
    simp only [parseUintLoop, Prod.mk.injEq, and_true] at h
    exact ⟨by simp, by rw [← h]; rfl⟩
  | cons a ds ih =>
    intro n u h
    by_cases ha : isDigit a = true
    · by_cases h1 : n ≥ (2 ^ 64 - 1) / 10 + 1
      · simp only [parseUintLoop, ha, if_true, h1] at h
        simp at h
      · by_cases h3 : (n * 10 + (a.toNat - 48)) % 2 ^ 64 < n * 10 ∨
            (n * 10 + (a.toNat - 48)) % 2 ^ 64 > 2 ^ 64 - 1
        · simp only [parseUintLoop, ha, if_true, h1, if_false, h3] at h
          simp at h
        · simp only [parseUintLoop, ha, if_true, h1, if_false, h3] at h
          have hv := isDigit_val a ha
          have hmod : (n * 10 + (a.toNat - 48)) % 2 ^ 64 = n * 10 + (a.toNat - 48) := by
            by_contra hne
            apply h3
            left
            have hbig : 2 ^ 64 ≤ n * 10 + (a.toNat - 48) := by
              by_contra hsmall
              exact hne (Nat.mod_eq_of_lt (not_le.mp hsmall))
            have hlt2 : n * 10 + (a.toNat - 48) < 2 * 2 ^ 64 := by
              norm_num at h1 ⊢
              omega
            have : (n * 10 + (a.toNat - 48)) % 2 ^ 64 = n * 10 + (a.toNat - 48) - 2 ^ 64 := by
              rw [Nat.mod_eq_sub_mod hbig, Nat.mod_eq_of_lt (by omega)]
            rw [this]
            norm_num at hbig ⊢
            omega
          rw [hmod] at h
          obtain ⟨hall, hu⟩ := ih _ u h
          refine ⟨?_, hu⟩
          intro c hc
          rcases List.mem_cons.mp hc with e | e
          · rw [e]; exact ha
          · exact hall c e
    · simp [parseUintLoop, ha] at h

theorem parseUintLoop_range (ds : List Char) :
    ∀ n u : Nat, parseUintLoop ds n = (u, some .ErrRange) → u = 2 ^ 64 - 1 := by
  induction ds with
  | nil => intro n u h; simp [parseUintLoop] at h
  | cons a ds ih =>
    intro n u h
    by_cases ha : isDigit a = true
    · by_cases h1 : n ≥ (2 ^ 64 - 1) / 10 + 1
      · simp only [parseUintLoop, ha, if_true, h1, Prod.mk.injEq, and_true] at h
        exact h.symm
      · by_cases h3 : (n * 10 + (a.toNat - 48)) % 2 ^ 64 < n * 10 ∨
            (n * 10 + (a.toNat - 48)) % 2 ^ 64 > 2 ^ 64 - 1
        · simp only [parseUintLoop, ha, if_true, h1, if_false, h3, Prod.mk.injEq,
            and_true] at h
          exact h.symm
        · simp only [parseUintLoop, ha, if_true, h1, if_false, h3] at h
          exact ih _ u h
    · simp [parseUintLoop, ha] at h

theorem ParseUint_digits (ds : List Char) (hne : ds ≠ []) (hd : ∀ c ∈ ds, isDigit c = true)
    (hlt : decimalFold 0 ds < 2 ^ 64) : ParseUint ds = (decimalFold 0 ds, none) := by
  simp only [ParseUint, hne, if_false]
  exact parseUintLoop_digits ds hd 0 hlt

theorem ParseUint_ok (ds : List Char) (u : Nat) (h : ParseUint ds = (u, none)) :
    ds ≠ [] ∧ (∀ c ∈ ds, isDigit c = true) ∧ u = decimalFold 0 ds := by
  by_cases hne : ds = []
  · simp [ParseUint, hne] at h
  · simp only [ParseUint, hne, if_false] at h
    exact ⟨hne, parseUintLoop_ok ds 0 u h⟩

theorem ParseUint_range (ds : List Char) (u : Nat) (h : ParseUint ds = (u, some .ErrRange)) :
    u = 2 ^ 64 - 1 := by
  by_cases hne : ds = []
  · simp [ParseUint, hne] at h
  · simp only [ParseUint, hne, if_false] at h
    exact parseUintLoop_range ds 0 u h

theorem ParseInt_cons (c : Char) (rest : List Char) :
    ParseInt (c :: rest) =
      if (ParseUint (if c = '+' ∨ c = '-' then rest else c :: rest)).2 = some .ErrSyntax then
        (0, some .ErrSyntax)
      else if ¬ c = '-' ∧
          (ParseUint (if c = '+' ∨ c = '-' then rest else c :: rest)).1 ≥ 2 ^ 63 then
        ((2 : Int) ^ 63 - 1, some .ErrRange)
      else if c = '-' ∧
          (ParseUint (if c = '+' ∨ c = '-' then rest else c :: rest)).1 > 2 ^ 63 then
        (-(2 : Int) ^ 63, some .ErrRange)
      else
        (if c = '-' then
            -((ParseUint (if c = '+' ∨ c = '-' then rest else c :: rest)).1 : Int)
          else ((ParseUint (if c = '+' ∨ c = '-' then rest else c :: rest)).1 : Int), none) := by
  rcases hP : ParseUint (if c = '+' ∨ c = '-' then rest else c :: rest) with ⟨un, err⟩
  simp only [ParseInt, hP, intSize]
  by_cases he : err = some .ErrSyntax
  · simp [he]
  · simp only [he, if_false]
    norm_num

theorem isDigit_not_sign (c : Char) (h : isDigit c = true) : ¬ (c = '+' ∨ c = '-') := by
  rintro (e | e) <;> · subst e; revert h; decide

theorem ParseInt_of_ParseUint (c : Char) (rest : List Char) (v : Nat)
    (hP : ParseUint (if c = '+' ∨ c = '-' then rest else c :: rest) = (v, none))
    (h1 : c = '-' → v ≤ 2 ^ 63) (h2 : ¬ c = '-' → v < 2 ^ 63) :
    ParseInt (c :: rest) = (if c = '-' then -(v : Int) else (v : Int), none) := by
  rw [ParseInt_cons, hP]
  simp only []
  rw [if_neg (by simp), if_neg (fun h => absurd h.2 (not_le.mpr (h2 h.1))),
    if_neg (fun h => absurd h.2 (not_lt.mpr (h1 h.1)))]

theorem ParseInt_ok_iff (s : List Char) (n : Int) :
    ParseInt s = (n, none) ↔ IsDecimalInt s n := by
  cases s with
  | nil =>
    constructor
    · intro h
      simp [ParseInt] at h
    · rintro ⟨ds, hne, -, (⟨h, -⟩ | ⟨h, -⟩ | ⟨h, -⟩), -⟩
      · exact absurd h.symm hne
      · simp at h
      · simp at h
  | cons c rest =>
    constructor
    · intro h
      rw [ParseInt_cons] at h
      rcases hP : ParseUint (if c = '+' ∨ c = '-' then rest else c :: rest) with ⟨un, err⟩
      rw [hP] at h
      simp only at h
      by_cases he : err = some .ErrSyntax
      · simp [he] at h
      · simp only [he, if_false] at h
        by_cases h1 : ¬ c = '-' ∧ un ≥ 2 ^ 63
        · simp only [h1] at h
          simp at h
        · simp only [h1, if_false] at h
          by_cases h2 : c = '-' ∧ un > 2 ^ 63
          · simp only [h2] at h
            simp at h
          · simp only [h2, if_false, Prod.mk.injEq, and_true] at h
            have herr : err = none := by
              cases err with
              | none => rfl
              | some e =>
                cases e with
                | ErrSyntax => exact absurd rfl he
                | ErrRange =>
                  have hu := ParseUint_range _ un hP
                  exfalso
                  by_cases hc : c = '-'
                  · apply h2
                    refine ⟨hc, ?_⟩
                    rw [hu]
                    norm_num
                  · apply h1
                    refine ⟨hc, ?_⟩
                    rw [hu]
                    norm_num
            rw [herr] at hP
            obtain ⟨hne, hd, hu⟩ := ParseUint_ok _ un hP
            have hnn : (0 : Int) ≤ (un : Int) := Int.natCast_nonneg _
            by_cases hc : c = '-'
            · subst hc
              simp only [or_true, if_true] at hne hd hu h
              have hle : ¬ un > 2 ^ 63 := fun hgt => h2 ⟨rfl, hgt⟩
              refine ⟨rest, hne, hd, Or.inr (Or.inr ⟨rfl, by rw [← h, hu]⟩), ?_, ?_⟩
              · rw [← h]
                norm_num at hle ⊢
                omega
              · rw [← h]
                norm_num
                omega
            · have hlt : ¬ un ≥ 2 ^ 63 := fun hge => h1 ⟨hc, hge⟩
              simp only [hc, if_false] at h
              have hlo : -(2 : Int) ^ 63 ≤ n := by
                rw [← h]
                norm_num
                omega
              have hhi : n < (2 : Int) ^ 63 := by
                rw [← h]
                norm_num at hlt ⊢
                omega
              by_cases hp : c = '+'
              · subst hp
                simp only [true_or, if_true] at hne hd hu
                exact ⟨rest, hne, hd, Or.inr (Or.inl ⟨rfl, by rw [← h, hu]⟩), hlo, hhi⟩
              · simp only [hc, hp, or_self, if_false] at hne hd hu
                exact ⟨c :: rest, hne, hd, Or.inl ⟨rfl, by rw [← h, hu]⟩, hlo, hhi⟩
    · rintro ⟨ds, hne, hd, hform, hlo, hhi⟩
      rcases hform with ⟨hs, hn⟩ | ⟨hs, hn⟩ | ⟨hs, hn⟩
      · subst hs
        have hcd : isDigit c = true := hd c (by simp)
        have hsign := isDigit_not_sign c hcd
        have hc : ¬ c = '-' := fun e => hsign (Or.inr e)
        have hlt : decimalFold 0 (c :: rest) < 2 ^ 63 := by
          rw [hn] at hhi
          norm_num at hhi ⊢
          omega
        have hP := ParseUint_digits (c :: rest) hne hd (by omega)
        rw [ParseInt_of_ParseUint c rest (decimalFold 0 (c :: rest))
          (by rw [if_neg hsign]; exact hP) (fun e => absurd e hc) (fun _ => hlt), if_neg hc, hn]
      · simp only [List.cons.injEq] at hs
        obtain ⟨hc, hr⟩ := hs
        subst hc
        subst hr
        have hlt : decimalFold 0 rest < 2 ^ 63 := by
          rw [hn] at hhi
          norm_num at hhi ⊢
          omega
        have hP := ParseUint_digits rest hne hd (by omega)
        have hc : ¬ ('+' : Char) = '-' := by decide
        rw [ParseInt_of_ParseUint '+' rest (decimalFold 0 rest)
          (by rw [if_pos (Or.inl rfl)]; exact hP) (fun e => absurd e hc) (fun _ => hlt),
          if_neg hc, hn]
      · simp only [List.cons.injEq] at hs
        obtain ⟨hc, hr⟩ := hs
        subst hc
        subst hr
        have hle : decimalFold 0 rest ≤ 2 ^ 63 := by
          rw [hn] at hlo
          norm_num at hlo ⊢
          omega
        have hP := ParseUint_digits rest hne hd (by omega)
        rw [ParseInt_of_ParseUint '-' rest (decimalFold 0 rest)
          (by rw [if_pos (Or.inr rfl)]; exact hP) (fun _ => hle) (fun e => absurd rfl e),
          if_pos rfl, hn]

theorem length_le_utf8ByteSize (l : List Char) : l.length ≤ String.utf8ByteSize.go l := by
  induction l with
  | nil => simp [String.utf8ByteSize.go]
  | cons c cs ih =>
    have := Char.utf8Size_pos c
    simp only [List.length_cons, String.utf8ByteSize.go]
    omega

theorem decimalFold_small (ds : List Char) (hd : ∀ c ∈ ds, isDigit c = true)
    (hlen : ds.length ≤ 18) : decimalFold 0 ds < 10 ^ 18 := by
  have h := decimalFold_lt ds hd 0
  have hp : 10 ^ ds.length ≤ 10 ^ 18 := Nat.pow_le_pow_right (by norm_num) hlen
  omega

theorem atoiLoop_small (ds : List Char) (hd : ∀ c ∈ ds, isDigit c = true)
    (hlen : ds.length ≤ 18) : atoiLoop ds 0 = (((decimalFold 0 ds : Nat) : Int), none) := by
  have h := decimalFold_small ds hd hlen
  have := atoiLoop_digits ds hd 0 (by norm_num at h ⊢; omega)
  simpa using this

/-- The fast path of `Atoi`, for a string that starts with `c`. -/
theorem Atoi_fast_cons (s : String) (c : Char) (rest : List Char)
    (hfast : 0 < s.utf8ByteSize ∧ s.utf8ByteSize < 19) (hdata : s.data = c :: rest) :
    Atoi s =
      if c = '-' ∨ c = '+' then
        if rest.length < 1 then (0, some .ErrSyntax)
        else if (atoiLoop rest 0).2 = none then
          (if c = '-' then wrapInt (-(atoiLoop rest 0).1) else (atoiLoop rest 0).1, none)
        else (0, (atoiLoop rest 0).2)
      else if (atoiLoop (c :: rest) 0).2 = none then ((atoiLoop (c :: rest) 0).1, none)
        else (0, (atoiLoop (c :: rest) 0).2) := by
  unfold Atoi
  simp only [hfast, and_self, if_true, hdata]
  by_cases hs : c = '-' ∨ c = '+'
  · simp only [hs, if_true]
    by_cases hl : rest.length < 1
    · simp only [hl, if_true]
    · simp only [hl, if_false]
      rcases hA : atoiLoop rest 0 with ⟨m, _ | e⟩
      · simp
      · simp
  · simp only [hs, if_false]
    rcases hA : atoiLoop (c :: rest) 0 with ⟨m, _ | e⟩
    · simp
    · simp

theorem Atoi_fast_iff (s : String) (n : Int)
    (hfast : 0 < s.utf8ByteSize ∧ s.utf8ByteSize < 19) :
    Atoi s = (n, none) ↔ IsDecimalInt s.data n := by
  have hlen : s.data.length ≤ 18 := by
    have := length_le_utf8ByteSize s.data
    have hb : s.utf8ByteSize = String.utf8ByteSize.go s.data := rfl
    omega
  cases hdata : s.data with
  | nil =>
    have hb : s.utf8ByteSize = String.utf8ByteSize.go s.data := rfl
    rw [hdata] at hb
    simp only [String.utf8ByteSize.go] at hb
    omega
  | cons c rest =>
    rw [hdata] at hlen
    simp only [List.length_cons] at hlen
    rw [Atoi_fast_cons s c rest hfast hdata]
    constructor
    · intro h
      by_cases hs : c = '-' ∨ c = '+'
      · simp only [hs, if_true] at h
        by_cases hl : rest.length < 1
        · simp [hl] at h
        · simp only [hl, if_false] at h
          rcases hA : atoiLoop rest 0 with ⟨m, _ | e⟩
          · rw [hA] at h
            simp only [if_true, Prod.mk.injEq, and_true] at h
            have hd := atoiLoop_ok_digits rest 0 m hA
            have hv := atoiLoop_small rest hd (by omega)
            rw [hA] at hv
            simp only [Prod.mk.injEq, and_true] at hv
            have hsmall := decimalFold_small rest hd (by omega)
            have hne : rest ≠ [] := by
              intro e
              rw [e] at hl
              simp at hl
            have hnn : (0 : Int) ≤ ((decimalFold 0 rest : Nat) : Int) := Int.natCast_nonneg _
            have hlt : ((decimalFold 0 rest : Nat) : Int) < 10 ^ 18 := by exact_mod_cast hsmall
            by_cases hc : c = '-'
            · subst hc
              simp only [if_true] at h
              rw [hv, wrapInt_of_range _ (by norm_num at hlt ⊢; omega)
                (by norm_num at hlt ⊢; omega)] at h
              refine ⟨rest, hne, hd, Or.inr (Or.inr ⟨rfl, h.symm⟩), ?_, ?_⟩
              · rw [← h]
                norm_num at hlt ⊢
                omega
              · rw [← h]
                norm_num at hlt ⊢
                omega
            · have hp : c = '+' := hs.resolve_left hc
              subst hp
              simp only [hc, if_false] at h
              rw [hv] at h
              refine ⟨rest, hne, hd, Or.inr (Or.inl ⟨rfl, h.symm⟩), ?_, ?_⟩
              · rw [← h]
                norm_num at hlt ⊢
                omega
              · rw [← h]
                norm_num at hlt ⊢
                omega
          · rw [hA] at h
            simp at h
      · simp only [hs, if_false] at h
        rcases hA : atoiLoop (c :: rest) 0 with ⟨m, _ | e⟩
        · rw [hA] at h
          simp only [if_true, Prod.mk.injEq, and_true] at h
          have hd := atoiLoop_ok_digits (c :: rest) 0 m hA
          have hv := atoiLoop_small (c :: rest) hd (by simp only [List.length_cons]; omega)
          rw [hA] at hv
          simp only [Prod.mk.injEq, and_true] at hv
          have hsmall := decimalFold_small (c :: rest) hd
            (by simp only [List.length_cons]; omega)
          have hnn : (0 : Int) ≤ ((decimalFold 0 (c :: rest) : Nat) : Int) :=
            Int.natCast_nonneg _
          have hlt : ((decimalFold 0 (c :: rest) : Nat) : Int) < 10 ^ 18 := by
            exact_mod_cast hsmall
          rw [hv] at h
          refine ⟨c :: rest, by simp, hd, Or.inl ⟨rfl, h.symm⟩, ?_, ?_⟩
          · rw [← h]
            norm_num at hlt ⊢
            omega
          · rw [← h]
            norm_num at hlt ⊢
            omega
        · rw [hA] at h
          simp at h
    · rintro ⟨ds, hne, hd, hform, hlo, hhi⟩
      rcases hform with ⟨hs, hn⟩ | ⟨hs, hn⟩ | ⟨hs, hn⟩
      · subst hs
        have hcd : isDigit c = true := hd c (by simp)
        have hsign : ¬ (c = '-' ∨ c = '+') := fun h => isDigit_not_sign c hcd h.symm
        have hv := atoiLoop_small (c :: rest) hd (by simp only [List.length_cons]; omega)
        simp only [hsign, if_false, hv, if_true, hn]
      · simp only [List.cons.injEq] at hs
        obtain ⟨hc, hr⟩ := hs
        subst hc
        subst hr
        have hv := atoiLoop_small rest hd (by omega)
        have hl : ¬ rest.length < 1 := by
          have := List.length_pos.mpr hne
          omega
        have hc : ¬ ('+' : Char) = '-' := by decide
        simp only [or_true, if_true, hl, if_false, hv, hc, hn]
      · simp only [List.cons.injEq] at hs
        obtain ⟨hc, hr⟩ := hs
        subst hc
        subst hr
        have hv := atoiLoop_small rest hd (by omega)
        have hsmall := decimalFold_small rest hd (by omega)
        have hnn : (0 : Int) ≤ ((decimalFold 0 rest : Nat) : Int) := Int.natCast_nonneg _
        have hlt : ((decimalFold 0 rest : Nat) : Int) < 10 ^ 18 := by exact_mod_cast hsmall
        have hl : ¬ rest.length < 1 := by
          have := List.length_pos.mpr hne
          omega
        simp only [true_or, if_true, hl, if_false, hv, hn]
        rw [wrapInt_of_range _ (by norm_num at hlt ⊢; omega) (by norm_num at hlt ⊢; omega)]

/-- `strconv.Atoi` succeeds with `n` exactly on the decimal writings of the integers `n` of the
range of `int`. -/
theorem Atoi_ok_iff (s : String) (n : Int) : Atoi s = (n, none) ↔ IsDecimalInt s.data n := by
  by_cases hfast : 0 < s.utf8ByteSize ∧ s.utf8ByteSize < 19
  · exact Atoi_fast_iff s n hfast
  · have : Atoi s = ParseInt s.data := by
      unfold Atoi
      simp only [hfast, if_false]
    rw [this]
    exact ParseInt_ok_iff s.data n

/-! ### The resolver -/

/-- The flag that `WebHooksEnabled` returns, on each of its three paths. -/
theorem WebHooksEnabled_fst (u : World) :
    (WebHooksEnabled u).1 = (TrimSpace (Getenv u envEnableWebHooks) != "false") := by
  unfold WebHooksEnabled
  by_cases hf : (TrimSpace (Getenv u envEnableWebHooks) != "false") = true
  · by_cases hs : u.statIsNotExist (GetWebHookCertDir u) = true
    · simp [hf, hs]
    · simp [hf, hs]
  · simp [hf]

/-- The options `GetManagerParams` returns once the metrics address is resolved and the
client configuration is found. -/
theorem GetManagerParams_ok {Scheme RestConfig : Type} (w : World) (cfg : RestConfig)
    (scheme : Scheme) (operatorName domainName bindAddress : String)
    (hm : metricServerAddress w = .ok bindAddress) :
    ∃ opts : Options Scheme,
      GetManagerParams w (some cfg) scheme operatorName domainName = .ok (cfg, opts) ∧
      opts.LeaderElectionID = "leader-lock-65403bab." ++ operatorName ++ "." ++ domainName ∧
      opts.Cache.DefaultNamespaces =
        (if (NamespacesToWatch w).length > 0 then some (defaultNamespacesOf (NamespacesToWatch w))
          else none) := by
  unfold GetManagerParams
  rw [hm]
  by_cases hn : (NamespacesToWatch w).length > 0
  · simp [hn]
  · simp [hn]

/-- When `GetManagerParams` returns, the metrics address was resolved and the client
configuration found, and the latter is returned. -/
theorem GetManagerParams_ok_inv {Scheme RestConfig : Type} (w : World)
    (restConfig : Option RestConfig) (scheme : Scheme) (operatorName domainName : String)
    (r : RestConfig × Options Scheme)
    (h : GetManagerParams w restConfig scheme operatorName domainName = .ok r) :
    (∃ bindAddress, metricServerAddress w = .ok bindAddress) ∧ restConfig = some r.1 := by
  unfold GetManagerParams at h
  cases hm : metricServerAddress w with
  | fatal msg => rw [hm] at h; simp at h
  | ok a =>
    cases restConfig with
    | none => rw [hm] at h; simp at h
    | some cfg =>
      rw [hm] at h
      simp only [Outcome.ok.injEq] at h
      refine ⟨⟨a, rfl⟩, ?_⟩
      rw [← h]

/-- A list is cut at the first occurrence of `x` in one way only. -/
theorem append_cons_inj_of_not_mem {x : Char} :
    ∀ (a a1 b b1 : List Char), x ∉ a → x ∉ a1 → a ++ x :: b = a1 ++ x :: b1 → a = a1 ∧ b = b1
  | [], [], b, b1, _, _, h => by simpa using h
  | [], c :: a1, b, b1, _, h1, h => by
    simp only [List.nil_append, List.cons_append, List.cons.injEq] at h
    exact absurd (List.mem_cons.mpr (Or.inl h.1)) h1
  | c :: a, [], b, b1, h0, _, h => by
    simp only [List.nil_append, List.cons_append, List.cons.injEq] at h
    exact absurd (List.mem_cons.mpr (Or.inl h.1.symm)) h0
  | c :: a, c1 :: a1, b, b1, h0, h1, h => by
    simp only [List.cons_append, List.cons.injEq] at h
    have ih := append_cons_inj_of_not_mem a a1 b b1
      (fun hm => h0 (List.mem_cons_of_mem _ hm)) (fun hm => h1 (List.mem_cons_of_mem _ hm)) h.2
    exact ⟨by rw [h.1, ih.1], ih.2⟩

namespace GoMap

theorem lookup_setEntries {V : Type} (k : String) (v : V) (k1 : String) :
    ∀ es : List (String × V),
      (setEntries k v es).lookup k1 = if k1 = k then some v else es.lookup k1
  | [] => by
    by_cases h : k1 = k
    · subst h
      simp [setEntries, List.lookup]
    · have hb : (k1 == k) = false := by simpa using h
      simp [setEntries, List.lookup, hb, h]
  | (k2, v2) :: rest => by
    have ih := lookup_setEntries k v k1 rest
    by_cases hk : k = k2
    · subst hk
      simp only [setEntries, if_true]
      by_cases h : k1 = k
      · subst h
        simp [List.lookup]
      · have hb : (k1 == k) = false := by simpa using h
        simp [List.lookup, hb, h]
    · simp only [setEntries, hk, if_false]
      by_cases h2 : k1 = k2
      · subst h2
        have hne : ¬ k1 = k := fun e => hk e.symm
        simp [List.lookup, hne]
      · have hb2 : (k1 == k2) = false := by simpa using h2
        simp [List.lookup, hb2, ih]

/-- Reading a key after a write. -/
theorem get?_set {V : Type} (m : GoMap V) (k : String) (v : V) (k1 : String) :
    (m.set k v).get? k1 = if k1 = k then some v else m.get? k1 :=
  lookup_setEntries k v k1 m.entries

theorem setEntries_of_lookup {V : Type} (k : String) (v : V) :
    ∀ es : List (String × V), es.lookup k = some v → setEntries k v es = es
  | [], h => by simp [List.lookup] at h
  | (k2, v2) :: rest, h => by
    by_cases hk : k = k2
    · subst hk
      simp only [List.lookup, beq_self_eq_true, Option.some.injEq] at h
      simp [setEntries, h]
    · have hb : (k == k2) = false := by simpa using hk
      simp only [List.lookup, hb] at h
      simp [setEntries, hk, setEntries_of_lookup k v rest h]

/-- Writing the value a key already has leaves the map as it is. -/
theorem set_of_get? {V : Type} (m : GoMap V) (k : String) (v : V) (h : m.get? k = some v) :
    m.set k v = m := by
  cases m with
  | mk es => simp only [set, setEntries_of_lookup k v es h]

theorem keys_setEntries {V : Type} (k : String) (v : V) (k1 : String) :
    ∀ es : List (String × V),
      k1 ∈ (setEntries k v es).map Prod.fst ↔ k1 = k ∨ k1 ∈ es.map Prod.fst
  | [] => by simp [setEntries]
  | (k2, v2) :: rest => by
    have ih := keys_setEntries k v k1 rest
    by_cases hk : k = k2
    · subst hk
      simp [setEntries]
    · simp only [setEntries, hk, if_false, List.map_cons, List.mem_cons, ih]
      tauto

theorem nodup_setEntries {V : Type} (k : String) (v : V) :
    ∀ es : List (String × V), (es.map Prod.fst).Nodup → ((setEntries k v es).map Prod.fst).Nodup
  | [], _ => by simp [setEntries]
  | (k2, v2) :: rest, h => by
    by_cases hk : k = k2
    · subst hk
      simpa [setEntries] using h
    · simp only [List.map_cons, List.nodup_cons] at h
      simp only [setEntries, hk, if_false, List.map_cons, List.nodup_cons]
      refine ⟨?_, nodup_setEntries k v rest h.2⟩
      rw [keys_setEntries]
      rintro (h1 | h1)
      · exact hk h1.symm
      · exact h.1 h1

theorem values_setEntries {V : Type} (k : String) (v : V) (P : V → Prop) (hv : P v) :
    ∀ es : List (String × V), (∀ e ∈ es, P e.2) → ∀ e ∈ setEntries k v es, P e.2
  | [], _ => by simp [setEntries, hv]
  | (k2, v2) :: rest, h => by
    by_cases hk : k = k2
    · subst hk
      intro e he
      simp only [setEntries, if_true, List.mem_cons] at he
      rcases he with he | he
      · rw [he]
        exact hv
      · exact h e (List.mem_cons_of_mem _ he)
    · intro e he
      simp only [setEntries, hk, if_false, List.mem_cons] at he
      rcases he with he | he
      · rw [he]
        exact h (k2, v2) (by simp)
      · exact values_setEntries k v P hv rest
          (fun e1 h1 => h e1 (List.mem_cons_of_mem _ h1)) e he

theorem lookup_mem {V : Type} (k : String) (v : V) :
    ∀ es : List (String × V), es.lookup k = some v → (k, v) ∈ es
  | [], h => by simp [List.lookup] at h
  | (k2, v2) :: rest, h => by
    by_cases hk : k = k2
    · subst hk
      simp only [List.lookup, beq_self_eq_true, Option.some.injEq] at h
      simp [h]
    · have hb : (k == k2) = false := by simpa using hk
      simp only [List.lookup, hb] at h
      exact List.mem_cons_of_mem _ (lookup_mem k v rest h)

theorem lookup_isSome_iff {V : Type} (k : String) :
    ∀ es : List (String × V), (es.lookup k).isSome = true ↔ k ∈ es.map Prod.fst
  | [] => by simp [List.lookup]
  | (k2, v2) :: rest => by
    have ih := lookup_isSome_iff k rest
    by_cases hk : k = k2
    · subst hk
      simp [List.lookup]
    · have hb : (k == k2) = false := by simpa using hk
      simp only [List.lookup, hb, ih, List.map_cons, List.mem_cons, hk, false_or]

end GoMap

/-- The map built from the namespaces: its keys are distinct and are the namespaces, and
every value is the empty configuration. -/
theorem defaultNamespacesOf_spec (namespaces : List String) :
    (defaultNamespacesOf namespaces).keys.Nodup ∧
    (∀ k, k ∈ (defaultNamespacesOf namespaces).keys ↔ k ∈ namespaces) ∧
    (∀ e ∈ (defaultNamespacesOf namespaces).entries, e.2 = ({} : CacheConfig)) := by
  have gen : ∀ (ns : List String) (m : GoMap CacheConfig),
      m.keys.Nodup → (∀ e ∈ m.entries, e.2 = ({} : CacheConfig)) →
      (ns.foldl (fun m namespace_ => m.set namespace_ {}) m).keys.Nodup ∧
      (∀ k, k ∈ (ns.foldl (fun m namespace_ => m.set namespace_ {}) m).keys ↔
        k ∈ m.keys ∨ k ∈ ns) ∧
      (∀ e ∈ (ns.foldl (fun m namespace_ => m.set namespace_ {}) m).entries,
        e.2 = ({} : CacheConfig)) := by
    intro ns
    induction ns with
    | nil =>
      intro m hnd hv
      exact ⟨hnd, fun k => by simp, hv⟩
    | cons n rest ih =>
      intro m hnd hv
      have h1 : (m.set n ({} : CacheConfig)).keys.Nodup :=
        GoMap.nodup_setEntries n ({} : CacheConfig) m.entries hnd
      have h2 : ∀ e ∈ (m.set n ({} : CacheConfig)).entries, e.2 = ({} : CacheConfig) :=
        GoMap.values_setEntries n ({} : CacheConfig) (fun c => c = ({} : CacheConfig)) rfl
          m.entries hv
      obtain ⟨a, b, c⟩ := ih (m.set n {}) h1 h2
      refine ⟨a, ?_, c⟩
      intro k
      rw [List.foldl_cons, b k]
      have hk : k ∈ (m.set n ({} : CacheConfig)).keys ↔ k = n ∨ k ∈ m.keys :=
        GoMap.keys_setEntries n ({} : CacheConfig) k m.entries
      rw [hk, List.mem_cons]
      tauto
  have h := gen namespaces GoMap.empty (by simp [GoMap.empty, GoMap.keys])
    (by simp [GoMap.empty])
  refine ⟨h.1, ?_, h.2.2⟩
  intro k
  have := h.2.1 k
  simpa [GoMap.empty, GoMap.keys, defaultNamespacesOf] using this

/-! ## Theorems -/

/-- C1: for a non-empty value `v` of `NAMESPACES_TO_WATCH`, `NamespacesToWatch` returns the
pieces of `v` between its commas (pieces without a comma that, joined by commas, give `v`
back), each with its surrounding white space trimmed, in order; there are as many as `v` has
commas, plus one.  For `"a, b ,c"` the result is `["a", "b", "c"]`. -/
theorem NamespacesToWatch_split_trim :
    (∀ (w : World) (v : String), w.env envNamespacesToWatch = some v → v ≠ "" →
      NamespacesToWatch w = (Split v ',').map TrimSpace ∧
      ∃ pieces : List String,
        List.intercalate [','] (pieces.map String.data) = v.data ∧
        (∀ p ∈ pieces, ',' ∉ p.data) ∧
        pieces.length = Count v ',' + 1 ∧
        List.Forall₂ IsTrimOf pieces (NamespacesToWatch w) ∧
        (NamespacesToWatch w).length = Count v ',' + 1) ∧
    NamespacesToWatch (worldOf [("NAMESPACES_TO_WATCH", "a, b ,c")]) = ["a", "b", "c"] := by
  refine ⟨?_, by decide⟩
  intro w v hv hne
  have hN : NamespacesToWatch w = (Split v ',').map TrimSpace := by
    simp [NamespacesToWatch, Getenv, hv, hne, cleanup_eq_map]
  have hlen : (Split v ',').length = Count v ',' + 1 := by
    simp [Split, Count, splitLoop_length]
  refine ⟨hN, Split v ',', ?_, ?_, hlen, ?_, ?_⟩
  · rw [Split_data, splitLoop_intercalate]
    simp
  · intro p hp
    have hmem : p.data ∈ (Split v ',').map String.data := List.mem_map_of_mem _ hp
    rw [Split_data] at hmem
    exact splitLoop_no_sep ',' v.data [] (by simp) p.data hmem
  · rw [hN, List.forall₂_map_right_iff]
    exact List.forall₂_same.mpr (fun p _ => TrimSpace_isTrimOf p)
  · rw [hN, List.length_map, hlen]

/-- C1, at the value `"a, b ,c"`. -/
theorem NamespacesToWatch_split_trim_witness :
    NamespacesToWatch (worldOf [("NAMESPACES_TO_WATCH", "a, b ,c")]) =
      (Split "a, b ,c" ',').map TrimSpace ∧
    ∃ pieces : List String,
      List.intercalate [','] (pieces.map String.data) = "a, b ,c".data ∧
      (∀ p ∈ pieces, ',' ∉ p.data) ∧
      pieces.length = Count "a, b ,c" ',' + 1 ∧
      List.Forall₂ IsTrimOf pieces
        (NamespacesToWatch (worldOf [("NAMESPACES_TO_WATCH", "a, b ,c")])) ∧
      (NamespacesToWatch (worldOf [("NAMESPACES_TO_WATCH", "a, b ,c")])).length =
        Count "a, b ,c" ',' + 1 :=
  NamespacesToWatch_split_trim.1 (worldOf [("NAMESPACES_TO_WATCH", "a, b ,c")]) "a, b ,c"
    (by decide) (by decide)

/-- C2, as stated, fails: the value `"a,,b"` has an empty piece, and the returned list keeps
it as an empty-string namespace. -/
theorem NamespacesToWatch_empty_element_counterexample :
    NamespacesToWatch (worldOf [("NAMESPACES_TO_WATCH", "a,,b")]) = ["a", "", "b"] ∧
    "" ∈ NamespacesToWatch (worldOf [("NAMESPACES_TO_WATCH", "a,,b")]) := by
  decide

/-- C2, amended: when `NAMESPACES_TO_WATCH` is absent or empty the returned list is empty, and
when every piece of the value between its commas holds a character that is not white space,
no element of the returned list is the empty string. -/
theorem NamespacesToWatch_no_empty_element (w : World)
    (h : Getenv w envNamespacesToWatch = "" ∨
      ∀ p ∈ Split (Getenv w envNamespacesToWatch) ',', ∃ c ∈ p.data, isSpace c = false) :
    "" ∉ NamespacesToWatch w ∧
      (Getenv w envNamespacesToWatch = "" → NamespacesToWatch w = []) := by
  have hempty : Getenv w envNamespacesToWatch = "" → NamespacesToWatch w = [] := by
    intro he
    simp [NamespacesToWatch, he]
  refine ⟨?_, hempty⟩
  by_cases he : Getenv w envNamespacesToWatch = ""
  · rw [hempty he]
    simp
  · have hall := h.resolve_left he
    have hN : NamespacesToWatch w = (Split (Getenv w envNamespacesToWatch) ',').map TrimSpace := by
      simp [NamespacesToWatch, he, cleanup_eq_map]
    rw [hN]
    intro hmem
    obtain ⟨p, hp, htrim⟩ := List.mem_map.mp hmem
    obtain ⟨c, hc, hcs⟩ := hall p hp
    obtain ⟨l, r, hdec, hl, hr⟩ := trim_decomp p.data
    have hd : trimRightSpace (trimLeftSpace p.data) = [] := by
      have := congrArg String.data htrim
      simpa [TrimSpace] using this
    rw [hd, List.append_nil] at hdec
    rw [hdec, List.mem_append] at hc
    have : isSpace c = true := hc.elim (hl c) (hr c)
    rw [this] at hcs
    exact Bool.noConfusion hcs

/-- C2, amended, at the value `"a, b ,c"`. -/
theorem NamespacesToWatch_no_empty_element_witness :
    "" ∉ NamespacesToWatch (worldOf [("NAMESPACES_TO_WATCH", "a, b ,c")]) ∧
      (Getenv (worldOf [("NAMESPACES_TO_WATCH", "a, b ,c")]) envNamespacesToWatch = "" →
        NamespacesToWatch (worldOf [("NAMESPACES_TO_WATCH", "a, b ,c")]) = []) :=
  NamespacesToWatch_no_empty_element (worldOf [("NAMESPACES_TO_WATCH", "a, b ,c")])
    (Or.inr (by decide))

/-- C3: `WebHooksEnabled` returns what the flag test
`strings.TrimSpace(os.Getenv("ENABLE_WEBHOOKS")) != "false"` gives; the answer of the
filesystem on the certificate directory does not change it, and a missing directory with
the flag not disabled still gives `true`. -/
theorem WebHooksEnabled_eq_flag_test (w : World) (stat : String → Bool) :
    (WebHooksEnabled w).1 = (TrimSpace (Getenv w envEnableWebHooks) != "false") ∧
    (WebHooksEnabled { w with statIsNotExist := stat }).1 = (WebHooksEnabled w).1 ∧
    (w.statIsNotExist (GetWebHookCertDir w) = true →
      TrimSpace (Getenv w envEnableWebHooks) ≠ "false" → (WebHooksEnabled w).1 = true) := by
  have key := WebHooksEnabled_fst
  refine ⟨key w, ?_, ?_⟩
  · rw [key, key]
    rfl
  · intro _ hflag
    rw [key]
    simpa using hflag

/-- C3, in a world without the certificate directory and with `ENABLE_WEBHOOKS=yes`. -/
theorem WebHooksEnabled_eq_flag_test_witness :
    (WebHooksEnabled (worldOf [("ENABLE_WEBHOOKS", "yes")])).1 = true :=
  (WebHooksEnabled_eq_flag_test (worldOf [("ENABLE_WEBHOOKS", "yes")]) (fun _ => false)).2.2
    (by decide) (by decide)

/-- C4, as stated, fails: `" false "` is not the literal `"false"`, and both flags are
off for it. -/
theorem flag_trimmed_counterexample :
    " false " ≠ "false" ∧
    LeaderElectionEnabled (worldOf [("ENABLE_LEADER_ELECTION", " false ")]) = false ∧
    (WebHooksEnabled (worldOf [("ENABLE_WEBHOOKS", " false ")])).1 = false := by
  decide

/-- C4, amended: `LeaderElectionEnabled` and `WebHooksEnabled` return `false` exactly when the
value of their flag is the literal `"false"` with nothing but white space around it, and
`true` for every other value: `"no"`, `"FALSE"`, `"true"`, `"flase"` and the unset flag
among them. -/
theorem flags_false_iff_trimmed_false (w : World) :
    (LeaderElectionEnabled w = false ↔
      ∃ l r, (Getenv w envEnableLeaderElection).data = l ++ "false".data ++ r ∧
        (∀ c ∈ l, isSpace c = true) ∧ (∀ c ∈ r, isSpace c = true)) ∧
    ((WebHooksEnabled w).1 = false ↔
      ∃ l r, (Getenv w envEnableWebHooks).data = l ++ "false".data ++ r ∧
        (∀ c ∈ l, isSpace c = true) ∧ (∀ c ∈ r, isSpace c = true)) ∧
    (∀ s ∈ ["no", "FALSE", "true", "flase"],
      LeaderElectionEnabled (worldOf [("ENABLE_LEADER_ELECTION", s)]) = true ∧
      (WebHooksEnabled (worldOf [("ENABLE_WEBHOOKS", s)])).1 = true) ∧
    LeaderElectionEnabled (worldOf []) = true ∧ (WebHooksEnabled (worldOf [])).1 = true := by
  have key : ∀ p : String, (TrimSpace p != "false") = false ↔
      ∃ l r, p.data = l ++ "false".data ++ r ∧
        (∀ c ∈ l, isSpace c = true) ∧ (∀ c ∈ r, isSpace c = true) := by
    intro p
    have h1 : (TrimSpace p != "false") = false ↔ TrimSpace p = "false" := by simp
    rw [h1, ← isTrimOf_iff]
    constructor
    · rintro ⟨l, r, h, hl, hr, -, -⟩
      exact ⟨l, r, h, hl, hr⟩
    · rintro ⟨l, r, h, hl, hr⟩
      refine ⟨l, r, h, hl, hr, ?_, ?_⟩
      · intro c hc
        have : c = 'f' := by simpa using hc.symm
        subst this
        decide
      · intro c hc
        have : c = 'e' := by simpa using hc.symm
        subst this
        decide
  refine ⟨key _, ?_, by decide, by decide, by decide⟩
  rw [WebHooksEnabled_fst w]
  exact key _

/-- C5: with `t` the trimmed value of `METRICS_SERVER_PORT`, `metricServerAddress` returns the
empty string when `t` is empty, returns `":"` followed by the decimal rendering of `n` when
`t` parses as the integer `n` (an optional sign and decimal digits that write an `n` of the
range of `int`, which is what `strconv.Atoi` accepts), and ends the process exactly when `t`
is not empty and does not parse as an integer; `"9090"` gives `":9090"` and `"abc"` ends the
process. -/
theorem metricServerAddress_cases (w : World) :
    (TrimSpace (Getenv w envMetricsServerPort) = "" → metricServerAddress w = .ok "") ∧
    (∀ n : Int, IsDecimalInt (TrimSpace (Getenv w envMetricsServerPort)).data n →
      metricServerAddress w = .ok (":" ++ FormatInt n)) ∧
    ((∃ msg, metricServerAddress w = .fatal msg) ↔
      TrimSpace (Getenv w envMetricsServerPort) ≠ "" ∧
        ∀ n : Int, ¬ IsDecimalInt (TrimSpace (Getenv w envMetricsServerPort)).data n) ∧
    (∀ n : Int, Atoi (TrimSpace (Getenv w envMetricsServerPort)) = (n, none) ↔
      IsDecimalInt (TrimSpace (Getenv w envMetricsServerPort)).data n) ∧
    metricServerAddress (worldOf [("METRICS_SERVER_PORT", "9090")]) = .ok ":9090" ∧
    metricServerAddress (worldOf [("METRICS_SERVER_PORT", "abc")]) =
      .fatal "Invalid METRICS_SERVER_PORT=abc" := by
  refine ⟨?_, ?_, ?_, fun n => Atoi_ok_iff _ n, by decide, by decide⟩
  · intro h
    simp [metricServerAddress, h]
  · intro n hn
    rw [← Atoi_ok_iff] at hn
    have hne : TrimSpace (Getenv w envMetricsServerPort) ≠ "" := by
      intro he
      have h0 : Atoi "" = (0, some .ErrSyntax) := by decide
      rw [he, h0] at hn
      simp at hn
    simp [metricServerAddress, hne, hn]
  · simp only [← Atoi_ok_iff]
    unfold metricServerAddress
    by_cases he : TrimSpace (Getenv w envMetricsServerPort) = ""
    · simp [he]
    · rcases hA : Atoi (TrimSpace (Getenv w envMetricsServerPort)) with ⟨n, _ | e⟩
      · simp [he, hA]
      · simp [he, hA]

/-- C5, at the values `"9090"` and `"  "`. -/
theorem metricServerAddress_cases_witness :
    metricServerAddress (worldOf [("METRICS_SERVER_PORT", "9090")]) =
      .ok (":" ++ FormatInt 9090) ∧
    metricServerAddress (worldOf [("METRICS_SERVER_PORT", "  ")]) = .ok "" :=
  ⟨(metricServerAddress_cases (worldOf [("METRICS_SERVER_PORT", "9090")])).2.1 9090
      ((Atoi_ok_iff _ _).mp (by decide)),
    (metricServerAddress_cases (worldOf [("METRICS_SERVER_PORT", "  ")])).1 (by decide)⟩

/-- C6: whatever the environment, the `LeaderElectionID` of the options that
`GetManagerParams` returns is `"leader-lock-65403bab." ++ o ++ "." ++ d`; the options are
returned whenever the metrics address is resolved and the client configuration found; two
calls with the same `o` and `d` give the same identifier; and `"foo"`, `"bar.io"` give
`"leader-lock-65403bab.foo.bar.io"`. -/
theorem LeaderElectionID_template {Scheme RestConfig : Type} (w w1 : World)
    (restConfig restConfig1 : Option RestConfig) (scheme : Scheme) (o d : String) :
    (∀ r, GetManagerParams w restConfig scheme o d = .ok r →
      r.2.LeaderElectionID = "leader-lock-65403bab." ++ o ++ "." ++ d) ∧
    (∀ a cfg, metricServerAddress w = .ok a → restConfig = some cfg →
      ∃ opts, GetManagerParams w restConfig scheme o d = .ok (cfg, opts) ∧
        opts.LeaderElectionID = "leader-lock-65403bab." ++ o ++ "." ++ d) ∧
    (∀ r r1, GetManagerParams w restConfig scheme o d = .ok r →
      GetManagerParams w1 restConfig1 scheme o d = .ok r1 →
      r.2.LeaderElectionID = r1.2.LeaderElectionID) ∧
    (∃ opts, GetManagerParams (worldOf []) (some ()) () "foo" "bar.io" = .ok ((), opts) ∧
      opts.LeaderElectionID = "leader-lock-65403bab.foo.bar.io") := by
  have key : ∀ (u : World) (rc : Option RestConfig) (r : RestConfig × Options Scheme),
      GetManagerParams u rc scheme o d = .ok r →
      r.2.LeaderElectionID = "leader-lock-65403bab." ++ o ++ "." ++ d := by
    intro u rc r h
    obtain ⟨⟨a, ha⟩, hrc⟩ := GetManagerParams_ok_inv u rc scheme o d r h
    obtain ⟨opts, hok, hid, -⟩ := GetManagerParams_ok u r.1 scheme o d a ha
    rw [hrc, hok] at h
    simp only [Outcome.ok.injEq] at h
    rw [← h]
    exact hid
  refine ⟨key w restConfig, ?_, ?_, ?_⟩
  · intro a cfg ha hrc
    obtain ⟨opts, hok, hid, -⟩ := GetManagerParams_ok w cfg scheme o d a ha
    exact ⟨opts, by rw [hrc, hok], hid⟩
  · intro r r1 h h1
    rw [key w restConfig r h, key w1 restConfig1 r1 h1]
  · obtain ⟨opts, hok, hid, -⟩ :=
      GetManagerParams_ok (worldOf []) () () "foo" "bar.io" "" (by decide)
    exact ⟨opts, hok, by rw [hid]; decide⟩

/-- C6, in a world that sets `METRICS_SERVER_PORT=9090`, for `"foo"` and `"bar.io"`. -/
theorem LeaderElectionID_template_witness :
    ∃ opts : Options Unit,
      GetManagerParams (worldOf [("METRICS_SERVER_PORT", "9090")]) (some ()) () "foo" "bar.io" =
        .ok ((), opts) ∧
      opts.LeaderElectionID = "leader-lock-65403bab." ++ "foo" ++ "." ++ "bar.io" :=
  (LeaderElectionID_template (worldOf [("METRICS_SERVER_PORT", "9090")]) (worldOf [])
    (some ()) none () "foo" "bar.io").2.1 ":9090" () (by decide) rfl

/-- C7, as stated, fails: the pairs `("a.b", "c")` and `("a", "b.c")` differ, and
`GetManagerParams` gives both the identifier `"leader-lock-65403bab.a.b.c"`. -/
theorem LeaderElectionID_collision_counterexample :
    ("a.b", "c") ≠ ("a", "b.c") ∧
    ∃ opts opts1 : Options Unit,
      GetManagerParams (worldOf []) (some ()) () "a.b" "c" = .ok ((), opts) ∧
      GetManagerParams (worldOf []) (some ()) () "a" "b.c" = .ok ((), opts1) ∧
      opts.LeaderElectionID = "leader-lock-65403bab.a.b.c" ∧
      opts1.LeaderElectionID = "leader-lock-65403bab.a.b.c" := by
  refine ⟨by decide, ?_⟩
  obtain ⟨opts, hok, hid, -⟩ := GetManagerParams_ok (worldOf []) () () "a.b" "c" "" (by decide)
  obtain ⟨opts1, hok1, hid1, -⟩ := GetManagerParams_ok (worldOf []) () () "a" "b.c" "" (by decide)
  exact ⟨opts, opts1, hok, hok1, by rw [hid]; decide, by rw [hid1]; decide⟩

/-- C7, amended: for operator names without a `'.'`, the identifier is unique per operator
and domain: if the pairs `(o1, d1)` and `(o2, d2)` differ, the `LeaderElectionID`s that
`GetManagerParams` returns for them differ. -/
theorem LeaderElectionID_injective_of_no_dot {Scheme RestConfig : Type} (w1 w2 : World)
    (restConfig1 restConfig2 : Option RestConfig) (scheme1 scheme2 : Scheme)
    (o1 d1 o2 d2 : String) (r1 r2 : RestConfig × Options Scheme)
    (h1 : GetManagerParams w1 restConfig1 scheme1 o1 d1 = .ok r1)
    (h2 : GetManagerParams w2 restConfig2 scheme2 o2 d2 = .ok r2)
    (hdot1 : '.' ∉ o1.data) (hdot2 : '.' ∉ o2.data) (hne : (o1, d1) ≠ (o2, d2)) :
    r1.2.LeaderElectionID ≠ r2.2.LeaderElectionID := by
  have key : ∀ (u : World) (rc : Option RestConfig) (sc : Scheme) (o d : String)
      (r : RestConfig × Options Scheme), GetManagerParams u rc sc o d = .ok r →
      r.2.LeaderElectionID = "leader-lock-65403bab." ++ o ++ "." ++ d := by
    intro u rc sc o d r h
    obtain ⟨⟨a, ha⟩, hrc⟩ := GetManagerParams_ok_inv u rc sc o d r h
    obtain ⟨opts, hok, hid, -⟩ := GetManagerParams_ok u r.1 sc o d a ha
    rw [hrc, hok] at h
    simp only [Outcome.ok.injEq] at h
    rw [← h]
    exact hid
  rw [key _ _ _ _ _ _ h1, key _ _ _ _ _ _ h2]
  intro heq
  have hdata := congrArg String.data heq
  simp only [String.data_append, List.append_assoc, List.append_cancel_left_eq] at hdata
  have hcut := append_cons_inj_of_not_mem o1.data o2.data d1.data d2.data hdot1 hdot2 hdata
  exact hne (by rw [String.ext hcut.1, String.ext hcut.2])

/-- C7, amended, for `("foo", "bar.io")` and `("foo", "baz.io")`. -/
theorem LeaderElectionID_injective_of_no_dot_witness :
    ∃ opts1 opts2 : Options Unit,
      GetManagerParams (worldOf []) (some ()) () "foo" "bar.io" = .ok ((), opts1) ∧
      GetManagerParams (worldOf []) (some ()) () "foo" "baz.io" = .ok ((), opts2) ∧
      opts1.LeaderElectionID ≠ opts2.LeaderElectionID := by
  obtain ⟨opts1, h1, -⟩ := GetManagerParams_ok (worldOf []) () () "foo" "bar.io" "" (by decide)
  obtain ⟨opts2, h2, -⟩ := GetManagerParams_ok (worldOf []) () () "foo" "baz.io" "" (by decide)
  exact ⟨opts1, opts2, h1, h2,
    LeaderElectionID_injective_of_no_dot (worldOf []) (worldOf []) (some ()) (some ()) () ()
      "foo" "bar.io" "foo" "baz.io" ((), opts1) ((), opts2) h1 h2
      (by decide) (by decide) (by decide)⟩

/-- C8: when `GetManagerParams` returns (the metrics address is resolved and the client
configuration found), `Cache.DefaultNamespaces` is unset if `NamespacesToWatch` is empty;
otherwise it is a map whose keys are exactly the namespaces of the list, one entry for each,
and which maps each of them to the empty per-namespace configuration. -/
theorem DefaultNamespaces_of_NamespacesToWatch {Scheme RestConfig : Type} (w : World)
    (cfg : RestConfig) (scheme : Scheme) (o d bindAddress : String)
    (hm : metricServerAddress w = .ok bindAddress) :
    ∃ opts : Options Scheme,
      GetManagerParams w (some cfg) scheme o d = .ok (cfg, opts) ∧
      (NamespacesToWatch w = [] → opts.Cache.DefaultNamespaces = none) ∧
      (NamespacesToWatch w ≠ [] →
        ∃ m : GoMap CacheConfig, opts.Cache.DefaultNamespaces = some m ∧
          m.keys.Nodup ∧
          (∀ k, k ∈ m.keys ↔ k ∈ NamespacesToWatch w) ∧
          (∀ k, m.get? k = if k ∈ NamespacesToWatch w then some {} else none)) := by
  obtain ⟨opts, hok, -, hcache⟩ := GetManagerParams_ok w cfg scheme o d bindAddress hm
  refine ⟨opts, hok, ?_, ?_⟩
  · intro he
    rw [hcache, he]
    simp
  · intro hne
    have hpos : (NamespacesToWatch w).length > 0 := List.length_pos.mpr hne
    obtain ⟨hnd, hkeys, hvals⟩ := defaultNamespacesOf_spec (NamespacesToWatch w)
    refine ⟨defaultNamespacesOf (NamespacesToWatch w), ?_, hnd, hkeys, ?_⟩
    · rw [hcache]
      simp [hpos]
    · intro k
      have hiff := GoMap.lookup_isSome_iff k (defaultNamespacesOf (NamespacesToWatch w)).entries
      by_cases hk : k ∈ NamespacesToWatch w
      · rw [if_pos hk]
        have hsome : ((defaultNamespacesOf (NamespacesToWatch w)).entries.lookup k).isSome =
            true := hiff.mpr ((hkeys k).mpr hk)
        obtain ⟨v, hv⟩ := Option.isSome_iff_exists.mp hsome
        have hval := hvals (k, v) (GoMap.lookup_mem k v _ hv)
        show (defaultNamespacesOf (NamespacesToWatch w)).entries.lookup k = some {}
        rw [hv]
        exact congrArg some hval
      · rw [if_neg hk]
        have hnot : ¬ ((defaultNamespacesOf (NamespacesToWatch w)).entries.lookup k).isSome =
            true := fun h => hk ((hkeys k).mp (hiff.mp h))
        show (defaultNamespacesOf (NamespacesToWatch w)).entries.lookup k = none
        cases hl : (defaultNamespacesOf (NamespacesToWatch w)).entries.lookup k with
        | none => rfl
        | some v =>
          rw [hl] at hnot
          exact absurd rfl hnot

/-- C8, in a world that sets `NAMESPACES_TO_WATCH` to `"a, b ,a"`. -/
theorem DefaultNamespaces_of_NamespacesToWatch_witness :
    ∃ opts : Options Unit,
      GetManagerParams (worldOf [("NAMESPACES_TO_WATCH", "a, b ,a")]) (some ()) () "foo"
        "bar.io" = .ok ((), opts) ∧
      (NamespacesToWatch (worldOf [("NAMESPACES_TO_WATCH", "a, b ,a")]) = [] →
        opts.Cache.DefaultNamespaces = none) ∧
      (NamespacesToWatch (worldOf [("NAMESPACES_TO_WATCH", "a, b ,a")]) ≠ [] →
        ∃ m : GoMap CacheConfig, opts.Cache.DefaultNamespaces = some m ∧
          m.keys.Nodup ∧
          (∀ k, k ∈ m.keys ↔ k ∈ NamespacesToWatch (worldOf [("NAMESPACES_TO_WATCH", "a, b ,a")])) ∧
          (∀ k, m.get? k =
            if k ∈ NamespacesToWatch (worldOf [("NAMESPACES_TO_WATCH", "a, b ,a")]) then some {}
            else none)) :=
  DefaultNamespaces_of_NamespacesToWatch (worldOf [("NAMESPACES_TO_WATCH", "a, b ,a")]) () ()
    "foo" "bar.io" "" (by decide)

/-- C9, on the code: the claim that `pvc.New` returns builds has the type metadata of a
`StatefulSet` of `apps/v1`, not of a `PersistentVolumeClaim` of `v1`; its namespace, name,
labels and spec are the arguments and its status is empty. -/
theorem New_typeMeta_is_StatefulSet :
    New "default" "data" (some ⟨[("app", "db")]⟩) ({} : PersistentVolumeClaimSpec) =
      { TypeMeta := { Kind := "StatefulSet", APIVersion := "apps/v1" }
        ObjectMeta := { Namespace := "default", Name := "data", Labels := some ⟨[("app", "db")]⟩ }
        Spec := {}
        Status := {} } ∧
    ∀ (Spec : Type) (namespace_ name : String) (labels : Option (GoMap String)) (spec : Spec),
      (New namespace_ name labels spec).TypeMeta =
        { Kind := "StatefulSet", APIVersion := "apps/v1" } ∧
      (New namespace_ name labels spec).TypeMeta ≠
        { Kind := "PersistentVolumeClaim", APIVersion := "v1" } ∧
      (New namespace_ name labels spec).ObjectMeta =
        { Namespace := namespace_, Name := name, Labels := labels } ∧
      (New namespace_ name labels spec).Spec = spec ∧
      (New namespace_ name labels spec).Status = {} := by
  refine ⟨rfl, ?_⟩
  intro Spec namespace_ name labels spec
  refine ⟨rfl, ?_, rfl, rfl, rfl⟩
  show ({ Kind := "StatefulSet", APIVersion := "apps/v1" } : TypeMeta) ≠ _
  decide

/-- C10: in the map that `DecorateForPrometheus` returns, `"prometheus.io/scrape"` is `"true"`
or `"false"` as `scrap` is, `"prometheus.io/port"` is the decimal rendering of `port` when
`scrap` is true and is as in `ann` when it is false, and every other key is as in `ann` (the
nil map read as the empty one); decorating the result again with the same `scrap` and `port`
gives the same map. -/
theorem DecorateForPrometheus_frame (ann : Option (GoMap String)) (scrap : Bool) (port : Int) :
    (DecorateForPrometheus ann scrap port).get? "prometheus.io/scrape" =
      some (if scrap then "true" else "false") ∧
    (scrap = true →
      (DecorateForPrometheus ann scrap port).get? "prometheus.io/port" =
        some (FormatInt port)) ∧
    (scrap = false →
      (DecorateForPrometheus ann scrap port).get? "prometheus.io/port" =
        (ann.getD GoMap.empty).get? "prometheus.io/port") ∧
    (∀ k, k ≠ "prometheus.io/scrape" → k ≠ "prometheus.io/port" →
      (DecorateForPrometheus ann scrap port).get? k = (ann.getD GoMap.empty).get? k) ∧
    DecorateForPrometheus (some (DecorateForPrometheus ann scrap port)) scrap port =
      DecorateForPrometheus ann scrap port ∧
    FormatInt 9090 = "9090" ∧ FormatInt (-1) = "-1" ∧ FormatInt 0 = "0" := by
  have hne : ¬ annPrometheusScrape = annPrometheusPort := by decide
  have hne1 : ¬ annPrometheusPort = annPrometheusScrape := by decide
  have hm : ∀ a : Option (GoMap String),
      (match a with
        | none => GoMap.empty
        | some m => m) = a.getD GoMap.empty := by
    intro a
    cases a <;> rfl
  have hscrape : (DecorateForPrometheus ann scrap port).get? annPrometheusScrape =
      some (FormatBool scrap) := by
    unfold DecorateForPrometheus
    cases scrap
    · simp [GoMap.get?_set]
    · simp [GoMap.get?_set, hne]
  have hport : scrap = true →
      (DecorateForPrometheus ann scrap port).get? annPrometheusPort = some (FormatInt port) := by
    intro h
    subst h
    simp [DecorateForPrometheus, GoMap.get?_set]
  refine ⟨?_, hport, ?_, ?_, ?_, by decide, by decide, by decide⟩
  · rw [show "prometheus.io/scrape" = annPrometheusScrape from rfl, hscrape]
    cases scrap <;> rfl
  · intro h
    subst h
    rw [show "prometheus.io/port" = annPrometheusPort from rfl]
    simp [DecorateForPrometheus, GoMap.get?_set, hne1, hm]
  · intro k hk1 hk2
    have h1 : ¬ k = annPrometheusScrape := hk1
    have h2 : ¬ k = annPrometheusPort := hk2
    unfold DecorateForPrometheus
    cases scrap
    · simp [GoMap.get?_set, h1, hm]
    · simp [GoMap.get?_set, h1, h2, hm]
  · cases hs : scrap
    · subst hs
      have := hscrape
      simp only [DecorateForPrometheus] at this ⊢
      simp only [Bool.false_eq_true, if_false] at this ⊢
      exact GoMap.set_of_get? _ _ _ this
    · subst hs
      have h1 := hscrape
      have h2 := hport rfl
      have e1 : (DecorateForPrometheus ann true port).set annPrometheusScrape (FormatBool true) =
          DecorateForPrometheus ann true port := GoMap.set_of_get? _ _ _ h1
      have e2 : (DecorateForPrometheus ann true port).set annPrometheusPort (FormatInt port) =
          DecorateForPrometheus ann true port := GoMap.set_of_get? _ _ _ h2
      show ((DecorateForPrometheus ann true port).set annPrometheusScrape
        (FormatBool true)).set annPrometheusPort (FormatInt port) = _
      rw [e1, e2]

/-- C10, for a nil map and for a map that holds a port, with and without scraping. -/
theorem DecorateForPrometheus_frame_witness :
    (DecorateForPrometheus none true 9090).get? "prometheus.io/port" = some (FormatInt 9090) ∧
    (DecorateForPrometheus (some ⟨[("prometheus.io/port", "1"), ("x", "y")]⟩) false
      9090).get? "prometheus.io/port" =
      ((some (⟨[("prometheus.io/port", "1"), ("x", "y")]⟩ : GoMap String)).getD
        GoMap.empty).get? "prometheus.io/port" ∧
    (DecorateForPrometheus (some ⟨[("prometheus.io/port", "1"), ("x", "y")]⟩) true
      9090).get? "x" =
      ((some (⟨[("prometheus.io/port", "1"), ("x", "y")]⟩ : GoMap String)).getD
        GoMap.empty).get? "x" :=
  ⟨(DecorateForPrometheus_frame none true 9090).2.1 rfl,
    (DecorateForPrometheus_frame (some ⟨[("prometheus.io/port", "1"), ("x", "y")]⟩) false
      9090).2.2.1 rfl,
    (DecorateForPrometheus_frame (some ⟨[("prometheus.io/port", "1"), ("x", "y")]⟩) true
      9090).2.2.2.1 "x" (by decide) (by decide)⟩

end OperatorHelper
